import Mathlib

/-!
Shallow embedding of the ingestion and retrieval pipeline of the
capstone-ai repository (backend/ingest_pipeline.py, backend/security_assessment.py,
backend/github_utils.py), together with theorems settling the frozen claims.

Python strings are modelled as Lean `String` and their character-level
operations (`str.lower`, `str.endswith`, `in`-containment, slicing) are
defined below over the underlying character lists, matching Python's
code-point semantics for the ASCII data appearing in the source's tables.
Floating-point scores are modelled as rationals: every claim at stake is
about which arithmetic expression is computed and how lists are ordered,
not about binary rounding.  External collaborators (Elasticsearch, the
OpenAI embedding client, tiktoken, the GitHub fetcher, Python's `hash`
and `hashlib.md5`) are modelled as explicit parameters or as small state
records whose fallible calls return `Except`, mirroring try/except flow.
-/

namespace CapstoneAI

/-- ASCII lower-casing of a single character, modelling Python `str.lower`
on the ASCII data used throughout the source's pattern tables. -/
def lowerChar (c : Char) : Char :=
  if 65 ≤ c.toNat ∧ c.toNat ≤ 90 then Char.ofNat (c.toNat + 32) else c

/-- Lower-case a string character-wise (Python `s.lower()`). -/
def toLowerS (s : String) : String :=
  String.mk (s.data.map lowerChar)

/-- Does the first character list occur at the head of the second one. -/
def startsWithChars : List Char → List Char → Bool
  | [], _ => true
  | _ :: _, [] => false
  | a :: as, b :: bs => a == b && startsWithChars as bs

/-- Python `s.endswith(suffix)`: the suffix occurs at the end of `s`. -/
def endsWithS (s suffix : String) : Bool :=
  startsWithChars suffix.data.reverse s.data.reverse

/-- Does `needle` occur contiguously inside the character list. -/
def subChars (needle : List Char) : List Char → Bool
  | [] => needle.isEmpty
  | h :: t => startsWithChars needle (h :: t) || subChars needle t

/-- Python `needle in hay` substring containment. -/
def containsS (hay needle : String) : Bool :=
  subChars needle.data hay.data

/-- A retrieved chunk as it flows through the retrieval ranker
(security_assessment.py): its file path, its text content, and its
mutable `_score` (a Python float, modelled as a rational). -/
structure Chunk where
  file_path : String
  content : String
  score : Rat
deriving DecidableEq

/-- CRITICAL_FILE_SUFFIXES from security_assessment.py, in source order. -/
def CRITICAL_FILE_SUFFIXES : List String :=
  ["package.json", "requirements.txt", "Pipfile", "pyproject.toml",
   "yarn.lock", "pnpm-lock.yaml", "Cargo.toml", "Gemfile",
   ".env", ".env.example", "docker-compose.yml", "Dockerfile",
   "config.json", "config.yaml", "config.yml", "settings.py"]

/-- HIGH_RISK_FILE_PATTERNS from security_assessment.py, in source order. -/
def HIGH_RISK_FILE_PATTERNS : List String :=
  ["auth", "login", "session", "jwt", "oauth", "token", "credential",
   "crypto", "encrypt", "decrypt", "hash", "sign", "cipher", "key",
   "sql", "query", "db", "database", "migration", "schema",
   "validator", "sanitize", "validate", "input", "parser",
   ".env", "config", "secret", "password", "api_key",
   "api", "endpoint", "route", "handler", "middleware"]

/-- SECURITY_HEURISTIC_PATTERNS from security_assessment.py, category
names paired with their pattern lists, in dict insertion order. -/
def SECURITY_HEURISTIC_PATTERNS : List (String × List String) :=
  [("auth", ["authenticate", "authorize", "login", "logout", "session", "jwt", "oauth", "bearer", "token"]),
   ("dangerous_functions", ["eval(", "exec(", "system(", "subprocess", "child_process", "innerHTML", "dangerouslySetInnerHTML"]),
   ("crypto", ["encrypt", "decrypt", "hash", "md5", "sha1", "sha256", "aes", "rsa", "hmac", "sign", "verify", "random"]),
   ("input_handling", ["request.", "params", "query", "body", "input", "sanitize", "validate", "escape"]),
   ("database", ["execute", "query", "SELECT", "INSERT", "UPDATE", "DELETE", "sql", "orm"]),
   ("secrets", ["password", "secret", "key", "token", "api_key", "apikey", "credentials", "aws_access"]),
   ("network", ["http", "https", "fetch", "axios", "request", "url", "uri", "cors", "tls", "ssl"])]

/-- Adaptive chunk-limit thresholds from security_assessment.py. -/
def SMALL_REPO_THRESHOLD : Nat := 50

def MEDIUM_REPO_THRESHOLD : Nat := 500

def SMALL_REPO_CHUNK_LIMIT : Nat := 100

def MEDIUM_REPO_CHUNK_LIMIT : Nat := 75

def LARGE_REPO_CHUNK_LIMIT : Nat := 50

/-- Function `_calculate_chunk_limit` from security_assessment.py. -/
def _calculate_chunk_limit (file_count : Nat) : Nat :=
  if file_count < SMALL_REPO_THRESHOLD then SMALL_REPO_CHUNK_LIMIT
  else if file_count < MEDIUM_REPO_THRESHOLD then MEDIUM_REPO_CHUNK_LIMIT
  else LARGE_REPO_CHUNK_LIMIT

/-- Function `_is_high_risk_file` from security_assessment.py: the lower-cased
path contains one of the high-risk substrings. -/
def _is_high_risk_file (file_path : String) : Bool :=
  HIGH_RISK_FILE_PATTERNS.any (fun pattern => containsS (toLowerS file_path) pattern)

/-- Function `_is_critical_file` from security_assessment.py: the LOWER-CASED path
must end with one of the suffixes, which are compared as written in the
table (so a suffix containing an upper-case letter can never match). -/
def _is_critical_file (file_path : String) : Bool :=
  CRITICAL_FILE_SUFFIXES.any (fun suffix => endsWithS (toLowerS file_path) suffix)

/-- The claim's wording of criticality, for comparison with the source's
`_is_critical_file`: the file path itself ends with one of the critical
suffixes from the table. -/
def claimCriticalFile (file_path : String) : Bool :=
  CRITICAL_FILE_SUFFIXES.any (fun suffix => endsWithS file_path suffix)

/-- Weight given to one heuristic category by
`_calculate_heuristic_score` in security_assessment.py. -/
def categoryWeight (category : String) : Rat :=
  if category = "dangerous_functions" ∨ category = "secrets" then 3/10
  else if category = "auth" ∨ category = "crypto" then 2/10
  else 1/10

/-- Function `_calculate_heuristic_score` from security_assessment.py: walk the
category table; as soon as one pattern of a category occurs in the
lower-cased content, add that category's weight once and move on. -/
def _calculate_heuristic_score (content : String) : Rat :=
  SECURITY_HEURISTIC_PATTERNS.foldl
    (fun score cat =>
      if cat.2.any (fun pattern => containsS (toLowerS content) (toLowerS pattern)) then
        score + categoryWeight cat.1
      else score)
    0

/-- One step of `_ensure_diversity`'s loop from security_assessment.py,
carrying the `file_counts` dictionary as a function. -/
def diversityGo (maxPerFile : Nat) : List Chunk → (String → Nat) → List Chunk
  | [], _ => []
  | c :: cs, counts =>
    let count := counts c.file_path
    if count < maxPerFile ∨ _is_critical_file c.file_path = true then
      c :: diversityGo maxPerFile cs (fun p => if p = c.file_path then count + 1 else counts p)
    else
      diversityGo maxPerFile cs counts

/-- Function `_ensure_diversity` from security_assessment.py (cap 5 at the call
sites): keep a chunk while fewer than `maxPerFile` chunks of its file
were kept, or always when its file is judged critical. -/
def _ensure_diversity (chunks : List Chunk) (maxPerFile : Nat) : List Chunk :=
  diversityGo maxPerFile chunks (fun _ => 0)

/-- The inner dedup loop of `_merge_and_deduplicate_chunks`: Python keeps
a `seen_content` set of `hash(content)` values; `hash` is modelled as
injective on strings, so the set is modelled by the list of seen
contents. -/
def dedupGo (seen : List String) : List Chunk → List Chunk
  | [] => []
  | c :: cs =>
    if c.content ∈ seen then dedupGo seen cs
    else c :: dedupGo (c.content :: seen) cs

/-- Bool comparator used by the source's `sort(key=_score, reverse=True)`
calls: a stable sort that puts higher scores first. -/
def scoreDesc (a b : Chunk) : Bool :=
  decide (b.score ≤ a.score)

/-- Function `_merge_and_deduplicate_chunks` from security_assessment.py: walk the
per-query result lists in order, keep the first chunk of each distinct
content, then sort the survivors by score, highest first. -/
def _merge_and_deduplicate_chunks (chunk_lists : List (List Chunk)) : List Chunk :=
  (dedupGo [] chunk_lists.flatten).mergeSort scoreDesc

/-- The per-chunk score update of `_apply_boosting` in
security_assessment.py: start from multiplier 1.0, add 0.5 for a
critical file else 0.3 for a high-risk file, add the heuristic score,
multiply the base score. -/
def boostChunk (c : Chunk) : Chunk :=
  let m1 : Rat := 1
  let m2 : Rat :=
    if _is_critical_file c.file_path = true then m1 + 1/2
    else if _is_high_risk_file c.file_path = true then m1 + 3/10
    else m1
  let m3 : Rat := m2 + _calculate_heuristic_score c.content
  { c with score := c.score * m3 }

/-- Function `_apply_boosting` from security_assessment.py: update every chunk's
score in place, then re-sort descending by the boosted score. -/
def _apply_boosting (chunks : List Chunk) : List Chunk :=
  (chunks.map boostChunk).mergeSort scoreDesc

/-- The heuristic score written as the claim states it: the sum, over
categories, of one weight per category whose pattern set matches the
content. -/
def heuristicSum (content : String) : Rat :=
  (SECURITY_HEURISTIC_PATTERNS.map
    (fun cat =>
      if cat.2.any (fun pattern => containsS (toLowerS content) (toLowerS pattern)) then
        categoryWeight cat.1
      else 0)).sum

/-- The file boost written as the claim states it: 0.5 for a critical
path, else 0.3 for a high-risk path, else 0. -/
def fileBoostOf (file_path : String) : Rat :=
  if _is_critical_file file_path = true then 1/2
  else if _is_high_risk_file file_path = true then 3/10
  else 0

/-- One iteration of the suffix loop of `_force_include_critical_files`:
given the repository's indexed chunks, the accumulated
(critical_chunks, existing_paths) pair and one suffix, run the size-1
wildcard query `*suffix` (modelled as the first indexed chunk whose path
ends with the suffix, case-sensitively, as an Elasticsearch wildcard on
a keyword field matches) and append the hit with score 999.0 unless its
path was already seen. -/
def forceStep (index : List Chunk) (acc : List Chunk × List String) (suffix : String) :
    List Chunk × List String :=
  match index.find? (fun c => endsWithS c.file_path suffix) with
  | none => acc
  | some c =>
    if c.file_path ∈ acc.2 then acc
    else (acc.1 ++ [{ c with score := 999 }], c.file_path :: acc.2)

/-- Function `_force_include_critical_files` from security_assessment.py: starting
from the paths of the chunks already selected, fold the suffix loop over
`CRITICAL_FILE_SUFFIXES` and return the collected critical chunks. -/
def _force_include_critical_files (index existing : List Chunk) : List Chunk :=
  (CRITICAL_FILE_SUFFIXES.foldl (forceStep index) ([], existing.map (fun c => c.file_path))).1

/-- The tail of `_fetch_chunks` (security_assessment.py lines 437-446):
prepend the force-included critical chunks to the post-diversity list
and truncate to the adaptive chunk limit. -/
def fetchChunksFinal (index existing : List Chunk) (file_count : Nat) : List Chunk :=
  (_force_include_critical_files index existing ++ existing).take (_calculate_chunk_limit file_count)

/-- The token ceiling MAX_TOKENS_PER_REQUEST from ingest_github_repo. -/
def MAX_TOKENS_PER_REQUEST : Nat := 250000

/-- Function `estimate_tokens` from ingest_github_repo, in its pure fallback
branch `max(1, len(text) // 3)`; the tiktoken branch is an external
tokenizer, so the batching theorems below are first proved for an
arbitrary token estimator and then instantiated with this fallback. -/
def estimate_tokens (text : String) : Nat :=
  max 1 (text.data.length / 3)

/-- The greedy batching loop of ingest_github_repo (lines 450-490),
carrying the current batch and its token sum; a batch is flushed when
the next chunk would push the sum over the ceiling and the batch is
nonempty, and the final nonempty batch is flushed after the loop. -/
def batchChunksGo (tok : String → Nat) (ceiling : Nat) :
    List String → List String → Nat → List (List String)
  | [], cur, _ => if cur = [] then [] else [cur]
  | c :: cs, cur, curTok =>
    let ct := tok c
    if ceiling < curTok + ct ∧ cur ≠ [] then
      cur :: batchChunksGo tok ceiling cs [c] ct
    else
      batchChunksGo tok ceiling cs (cur ++ [c]) (curTok + ct)

/-- The batches ingest_github_repo submits to the embedding provider,
in submission order. -/
def batchChunks (tok : String → Nat) (ceiling : Nat) (chunks : List String) :
    List (List String) :=
  batchChunksGo tok ceiling chunks [] 0

/-- Outcome classification of one `embed_documents` call: the source
distinguishes errors whose text contains "max_tokens_per_request" from
every other exception. -/
inductive EmbError where
  | overLimit : EmbError
  | other : EmbError
deriving DecidableEq

/-- Python `current_batch[start:start+size]` slicing loop
`for start_idx in range(0, len(current_batch), sub_batch_size)`:
cut a list into consecutive pieces of the given size. -/
def subBatches : Nat → List String → List (List String)
  | _, [] => []
  | 0, a :: l => [a :: l]
  | size + 1, a :: l =>
    (a :: l).take (size + 1) :: subBatches (size + 1) ((a :: l).drop (size + 1))
termination_by _ l => l.length
decreasing_by simp_all [List.length_drop]; omega

/-- Embed each sub-batch in order, concatenating the vectors; a failing
sub-batch call is NOT retried — its exception propagates (there is no
try/except around the inner `embed_documents` calls in the source). -/
def embedSubBatches (embed : List String → Except EmbError (List (List Rat))) :
    List (List String) → Except EmbError (List (List Rat))
  | [] => Except.ok []
  | sb :: rest =>
    match embed sb with
    | Except.error e => Except.error e
    | Except.ok vs =>
      match embedSubBatches embed rest with
      | Except.error e => Except.error e
      | Except.ok more => Except.ok (vs ++ more)

/-- The per-batch embedding call of ingest_github_repo (lines 461-477)
with its except-clause: on an over-token-limit error, split the batch
once into consecutive sub-batches of size `max(1, len(batch) // 2)` and
embed each without any further splitting; on any other error, re-raise. -/
def embedBatchWithSplit (embed : List String → Except EmbError (List (List Rat)))
    (batch : List String) : Except EmbError (List (List Rat)) :=
  match embed batch with
  | Except.ok vs => Except.ok vs
  | Except.error e =>
    if e = EmbError.overLimit then
      embedSubBatches embed (subBatches (max 1 (batch.length / 2)) batch)
    else
      Except.error e

/-- Function `generate_chunk_id` from ingest_pipeline.py: md5 (an external
primitive, passed in as a function) of
`"{owner}/{repo}/{file_path}/{content[:100]}"`; the Python slice takes
the first 100 code points. -/
def generate_chunk_id (md5 : String → String)
    (owner repo file_path content : String) : String :=
  md5 (owner ++ "/" ++ repo ++ "/" ++ file_path ++ "/" ++ String.mk (content.data.take 100))

/-- The Elasticsearch bulk call of ingest_github_repo, which indexes
each document under `_id = chunk_id`: an index request with an existing
id replaces that document, so the store is an id-keyed association list
where each action removes any previous entry with its id. -/
def bulkIndexById (actions : List (String × Chunk)) : List (String × Chunk) :=
  actions.foldl
    (fun store act => store.filter (fun kv => kv.1 ≠ act.1) ++ [act]) []

/-- EMBEDDING_DIM from ingest_pipeline.py. -/
def EMBEDDING_DIM : Nat := 1536

/-- The `embedding` property of the index mapping as `ensure_index`
reads it: field type and dimension count. -/
structure EmbeddingField where
  ftype : String
  dims : Nat
deriving DecidableEq

/-- The observable Elasticsearch state `ensure_index` interacts with:
whether the chunks index exists, its `embedding` mapping entry (if any),
and whether the probing calls themselves raise (the body sits in one
try/except, modelled by a single failure flag). -/
structure StoreState where
  probeFails : Bool
  indexExists : Bool
  embedding : Option EmbeddingField
deriving DecidableEq

/-- Function `ensure_index` from ingest_pipeline.py as a state transformer:
returns the readiness flag and the resulting store state, or re-raises
(Except.error) — which the source only does when `recreate_if_invalid`
is set.  Creation installs the INDEX_DEFINITION mapping
(`dense_vector` of dimension EMBEDDING_DIM). -/
def ensure_index (s : StoreState) (recreate_if_invalid : Bool) :
    Except String (Bool × StoreState) :=
  if s.probeFails then
    if recreate_if_invalid then Except.error "es"
    else Except.ok (false, s)
  else if s.indexExists = false then
    if recreate_if_invalid then
      Except.ok (true, { s with indexExists := true, embedding := some ⟨"dense_vector", EMBEDDING_DIM⟩ })
    else Except.ok (false, s)
  else
    match s.embedding with
    | none =>
      if recreate_if_invalid then
        Except.ok (true, { s with embedding := some ⟨"dense_vector", EMBEDDING_DIM⟩ })
      else Except.ok (false, s)
    | some f =>
      if f.ftype ≠ "dense_vector" ∨ f.dims ≠ EMBEDDING_DIM then
        if recreate_if_invalid then
          Except.ok (true, { s with embedding := some ⟨"dense_vector", EMBEDDING_DIM⟩ })
        else Except.ok (false, s)
      else Except.ok (true, s)

/-- Readiness as the claim describes it: the probe succeeds, the index
exists, and its embedding field is a `dense_vector` of the expected
dimensionality. -/
def indexReady (s : StoreState) : Bool :=
  !s.probeFails && s.indexExists &&
    (match s.embedding with
     | some f => f.ftype == "dense_vector" && f.dims == EMBEDDING_DIM
     | none => false)

/-- One step of a UTF-8 decoder on a nonempty byte list: either the
decoded character of a valid leading sequence together with its byte
count, or `none` with the number of bytes an `errors='ignore'` decode
drops (an invalid start byte drops one byte; an invalid continuation
drops the valid partial sequence before it; a sequence truncated by the
end of input drops its partial bytes). -/
def utf8Step : List Nat → Option Char × Nat
  | [] => (none, 0)
  | b :: rest =>
    if b ≤ 0x7F then (some (Char.ofNat b), 1)
    else if 0xC2 ≤ b ∧ b ≤ 0xDF then
      match rest with
      | [] => (none, 1)
      | b2 :: _ =>
        if 0x80 ≤ b2 ∧ b2 ≤ 0xBF then
          (some (Char.ofNat ((b - 0xC0) * 0x40 + (b2 - 0x80))), 2)
        else (none, 1)
    else if 0xE0 ≤ b ∧ b ≤ 0xEF then
      match rest with
      | [] => (none, 1)
      | b2 :: rest2 =>
        if (0x80 ≤ b2 ∧ b2 ≤ 0xBF) ∧ (b = 0xE0 → 0xA0 ≤ b2) ∧ (b = 0xED → b2 ≤ 0x9F) then
          match rest2 with
          | [] => (none, 2)
          | b3 :: _ =>
            if 0x80 ≤ b3 ∧ b3 ≤ 0xBF then
              (some (Char.ofNat ((b - 0xE0) * 0x1000 + (b2 - 0x80) * 0x40 + (b3 - 0x80))), 3)
            else (none, 2)
        else (none, 1)
    else if 0xF0 ≤ b ∧ b ≤ 0xF4 then
      match rest with
      | [] => (none, 1)
      | b2 :: rest2 =>
        if (0x80 ≤ b2 ∧ b2 ≤ 0xBF) ∧ (b = 0xF0 → 0x90 ≤ b2) ∧ (b = 0xF4 → b2 ≤ 0x8F) then
          match rest2 with
          | [] => (none, 2)
          | b3 :: rest3 =>
            if 0x80 ≤ b3 ∧ b3 ≤ 0xBF then
              match rest3 with
              | [] => (none, 3)
              | b4 :: _ =>
                if 0x80 ≤ b4 ∧ b4 ≤ 0xBF then
                  (some (Char.ofNat ((b - 0xF0) * 0x40000 + (b2 - 0x80) * 0x1000 + (b3 - 0x80) * 0x40 + (b4 - 0x80))), 4)
                else (none, 3)
            else (none, 2)
        else (none, 1)
    else (none, 1)

/-- CPython's UTF-8 decoder with `errors='ignore'` over a byte list:
valid sequences decode to their code point, undecodable portions are
dropped.  This models `decoded_content.decode('utf-8', errors='ignore')`
in github_utils.get_file_content. -/
def decodeUtf8Ignore : List Nat → List Char
  | [] => []
  | b :: rest =>
    match utf8Step (b :: rest) with
    | (some c, n) => c :: decodeUtf8Ignore (rest.drop (n - 1))
    | (none, n) => decodeUtf8Ignore (rest.drop (n - 1))
termination_by l => l.length
decreasing_by all_goals (simp only [List.length_cons, List.length_drop]; omega)

/-- Strict UTF-8 validity of a byte list: true exactly when a strict
decode (`bytes.decode('utf-8')`) would succeed, i.e. the content "can be
decoded as text". -/
def validUtf8 : List Nat → Bool
  | [] => true
  | b :: rest =>
    match utf8Step (b :: rest) with
    | (some _, n) => validUtf8 (rest.drop (n - 1))
    | (none, _) => false
termination_by l => l.length
decreasing_by all_goals (simp only [List.length_cons, List.length_drop]; omega)

/-- The decode step of github_utils.get_file_content applied to a
file's raw bytes: `decoded_content.decode('utf-8', errors='ignore')`.
The `except UnicodeDecodeError: return ""` clause of the source is
unreachable behind this call, because `errors='ignore'` never raises. -/
def getFileContentText (bytes : List Nat) : String :=
  String.mk (decodeUtf8Ignore bytes)

/-- The chunk-producing skeleton of `process_file_chunks`
(ingest_pipeline.py lines 125-131): an empty content short-circuits to
zero chunks, otherwise the file-type-dispatched splitter (an external
langchain collaborator, passed in as a function) produces the chunk
texts. -/
def process_file_chunks (split : String → List String) (content : String) : List String :=
  if content = "" then [] else split content

/-- One search hit as `search_similar_chunks` reads it out of the
Elasticsearch response `_source` plus `_score`. -/
structure Hit where
  content : String
  file_path : String
  repo_name : String
  repo_owner : String
  metadata : String
  score : Rat
  chunk_id : Option String
deriving DecidableEq

/-- The result dict `search_similar_chunks` builds per hit. -/
structure SearchResult where
  content : String
  file_path : String
  repo_name : String
  repo_owner : String
  metadata : String
  score : Rat
  chunk_id : Option String
deriving DecidableEq

/-- The field-by-field result construction of search_similar_chunks
(ingest_pipeline.py lines 317-327). -/
def toResult (h : Hit) : SearchResult :=
  ⟨h.content, h.file_path, h.repo_name, h.repo_owner, h.metadata, h.score, h.chunk_id⟩

/-- The external world `search_similar_chunks` runs against: every
fallible collaborator call is an `Except` value (error = that call
raises).  `storeHits` holds the store's ranked hit list for the issued
query; the request carries `"size": top_k`, so the store returns at
most the first `top_k` of them. -/
structure SearchEnv where
  indexExists : Except String Bool
  hasEmbedder : Bool
  vectorReady : Bool
  embedOutcome : Except String (List Rat)
  storeHits : Except String (List Hit)

/-- Function `search_similar_chunks` from ingest_pipeline.py (lines 240-333): the
whole body sits in one try/except returning `[]` on any exception.  A
missing index returns `[]`; when an embedder is configured and the
vector mapping is ready, the query embedding is computed (its failure is
swallowed into `[]` by the outer except); then the store query runs and
its hits are mapped to result dicts. -/
def search_similar_chunks (env : SearchEnv) (top_k : Nat) : List SearchResult :=
  match env.indexExists with
  | Except.error _ => []
  | Except.ok false => []
  | Except.ok true =>
    let embedStep : Except String Unit :=
      if env.hasEmbedder ∧ env.vectorReady then
        match env.embedOutcome with
        | Except.error e => Except.error e
        | Except.ok _ => Except.ok ()
      else Except.ok ()
    match embedStep with
    | Except.error _ => []
    | Except.ok _ =>
      match env.storeHits with
      | Except.error _ => []
      | Except.ok hits => (hits.take top_k).map toResult

/-! ## Generic facts about the greedy token batching loop -/

/-- Estimated token sum of a batch. -/
def batchTokens (tok : String → Nat) (b : List String) : Nat :=
  (b.map tok).sum

theorem estimate_tokens_mk (l : List Char) :
    estimate_tokens (String.mk l) = max 1 (l.length / 3) := rfl

theorem batchChunksGo_ne_nil (tok : String → Nat) (C : Nat) :
    ∀ (cs cur : List String) (curTok : Nat),
      ∀ b ∈ batchChunksGo tok C cs cur curTok, b ≠ [] := by
  intro cs
  induction cs with
  | nil =>
    intro cur curTok b hb
    by_cases h : cur = []
    · simp [batchChunksGo, h] at hb
    · simp [batchChunksGo, h] at hb
      exact hb ▸ h
  | cons c cs ih =>
    intro cur curTok b hb
    by_cases h : C < curTok + tok c ∧ cur ≠ []
    · rw [batchChunksGo, if_pos h] at hb
      rcases List.mem_cons.mp hb with hb | hb
      · exact hb ▸ h.2
      · exact ih [c] (tok c) b hb
    · rw [batchChunksGo, if_neg h] at hb
      exact ih (cur ++ [c]) (curTok + tok c) b hb

theorem batchChunksGo_sum_le (tok : String → Nat) (C : Nat) :
    ∀ (cs cur : List String) (curTok : Nat),
      curTok = batchTokens tok cur →
      (2 ≤ cur.length → curTok ≤ C) →
      ∀ b ∈ batchChunksGo tok C cs cur curTok,
        2 ≤ b.length → batchTokens tok b ≤ C := by
  intro cs
  induction cs with
  | nil =>
    intro cur curTok hsum hle b hb h2
    by_cases h : cur = []
    · simp [batchChunksGo, h] at hb
    · simp [batchChunksGo, h] at hb
      exact hb ▸ hsum ▸ hle (hb ▸ h2)
  | cons c cs ih =>
    intro cur curTok hsum hle b hb h2
    by_cases h : C < curTok + tok c ∧ cur ≠ []
    · rw [batchChunksGo, if_pos h] at hb
      rcases List.mem_cons.mp hb with hb | hb
      · exact hb ▸ hsum ▸ hle (hb ▸ h2)
      · refine ih [c] (tok c) ?_ ?_ b hb h2
        · simp [batchTokens]
        · intro habs; simp at habs
    · rw [batchChunksGo, if_neg h] at hb
      refine ih (cur ++ [c]) (curTok + tok c) ?_ ?_ b hb h2
      · simp [batchTokens, hsum]
      · intro h2'
        by_cases hc : cur = []
        · subst hc; simp at h2'
        · exact le_of_not_lt fun hlt => h ⟨hlt, hc⟩

theorem batchChunksGo_head (tok : String → Nat) (C : Nat) :
    ∀ (cs cur : List String) (curTok : Nat), cur ≠ [] →
      ∃ s t, batchChunksGo tok C cs cur curTok = (cur ++ s) :: t := by
  intro cs
  induction cs with
  | nil =>
    intro cur curTok hcur
    exact ⟨[], [], by simp [batchChunksGo, hcur]⟩
  | cons c cs ih =>
    intro cur curTok hcur
    by_cases h : C < curTok + tok c ∧ cur ≠ []
    · exact ⟨[], batchChunksGo tok C cs [c] (tok c), by rw [batchChunksGo, if_pos h]; simp⟩
    · obtain ⟨s, t, hst⟩ := ih (cur ++ [c]) (curTok + tok c) (by simp)
      exact ⟨[c] ++ s, t, by rw [batchChunksGo, if_neg h, hst]; simp⟩

theorem batchChunksGo_chain (tok : String → Nat) (C : Nat) :
    ∀ (cs cur : List String) (curTok : Nat),
      curTok = batchTokens tok cur →
      List.Chain' (fun b b' => C < batchTokens tok b + batchTokens tok b')
        (batchChunksGo tok C cs cur curTok) := by
  intro cs
  induction cs with
  | nil =>
    intro cur curTok _
    by_cases h : cur = [] <;> simp [batchChunksGo, h]
  | cons c cs ih =>
    intro cur curTok hsum
    by_cases h : C < curTok + tok c ∧ cur ≠ []
    · rw [batchChunksGo, if_pos h]
      refine List.chain'_cons'.mpr ⟨?_, ih [c] (tok c) (by simp [batchTokens])⟩
      intro y hy
      obtain ⟨s, t, hst⟩ := batchChunksGo_head tok C cs [c] (tok c) (by simp)
      rw [hst] at hy
      simp only [List.head?_cons, Option.mem_def, Option.some.injEq] at hy
      have hyt : batchTokens tok ([c] ++ s) = tok c + batchTokens tok s := by
        simp [batchTokens]
      calc C < curTok + tok c := h.1
        _ ≤ batchTokens tok cur + (tok c + batchTokens tok s) := by
              rw [hsum]; omega
        _ = batchTokens tok cur + batchTokens tok y := by rw [← hy, hyt]
    · rw [batchChunksGo, if_neg h]
      exact ih (cur ++ [c]) (curTok + tok c) (by simp [batchTokens, hsum])

/-- C1, amended.  Every batch assembled by the greedy token-budget loop
of ingest_github_repo is nonempty; every batch holding at least two
texts has estimated-token sum at most the 250000 ceiling (a batch can
exceed the ceiling only when it is a single text whose own estimate
already exceeds it); and the packing is greedily minimal: no two
adjacent batches could be merged without their combined estimated-token
sum exceeding the ceiling. -/
theorem c1_greedy_batching_amended (chunks : List String) :
    (∀ b ∈ batchChunks estimate_tokens MAX_TOKENS_PER_REQUEST chunks,
      b ≠ [] ∧ (2 ≤ b.length →
        batchTokens estimate_tokens b ≤ MAX_TOKENS_PER_REQUEST)) ∧
    List.Chain'
      (fun b b' => MAX_TOKENS_PER_REQUEST <
        batchTokens estimate_tokens b + batchTokens estimate_tokens b')
      (batchChunks estimate_tokens MAX_TOKENS_PER_REQUEST chunks) := by
  refine ⟨fun b hb => ⟨?_, ?_⟩, ?_⟩
  · exact batchChunksGo_ne_nil estimate_tokens MAX_TOKENS_PER_REQUEST chunks [] 0 b hb
  · exact batchChunksGo_sum_le estimate_tokens MAX_TOKENS_PER_REQUEST chunks [] 0
      (by simp [batchTokens]) (by intro h; simp at h) b hb
  · exact batchChunksGo_chain estimate_tokens MAX_TOKENS_PER_REQUEST chunks [] 0
      (by simp [batchTokens])

theorem batchChunks_singleton (tok : String → Nat) (C : Nat) (t : String) :
    batchChunks tok C [t] = [[t]] := by
  simp [batchChunks, batchChunksGo]

/-- The text exhibiting C1's failure: 750003 characters, whose fallback
token estimate 250001 exceeds the 250000 ceiling. -/
def oversizedText : String := String.mk (List.replicate 750003 'a')

/-- C1, counterexample to the claim as stated: on the input consisting
of this single oversized chunk text, the greedy batching produces a
batch whose estimated-token sum exceeds the configured 250000 ceiling. -/
theorem c1_greedy_batching_counterexample :
    ∃ b ∈ batchChunks estimate_tokens MAX_TOKENS_PER_REQUEST [oversizedText],
      MAX_TOKENS_PER_REQUEST < batchTokens estimate_tokens b := by
  refine ⟨[oversizedText], ?_, ?_⟩
  · rw [batchChunks_singleton]
    exact List.mem_singleton.mpr rfl
  · have h : estimate_tokens oversizedText = 250001 := by
      rw [oversizedText, estimate_tokens_mk, List.length_replicate]
      decide
    rw [batchTokens, List.map_singleton, h]
    decide

/-- Witness instantiating `c1_greedy_batching_amended` on a concrete
two-text input whose single batch has two texts and a small token sum. -/
theorem c1_greedy_batching_witness :
    (["a", "b"] ∈ batchChunks estimate_tokens MAX_TOKENS_PER_REQUEST ["a", "b"]) ∧
    batchTokens estimate_tokens ["a", "b"] ≤ MAX_TOKENS_PER_REQUEST :=
  ⟨by decide,
   ((c1_greedy_batching_amended ["a", "b"]).1 ["a", "b"] (by decide)).2 (by decide)⟩

/-! ## C2: the over-limit retry performs a single split, not recursion -/

/-- A provider behaviour exhibiting C2's failure: every batch of two or
more texts is rejected with the over-token-limit error, while every
single-text batch succeeds (returning one vector per text). -/
def rejectPairsEmbed (l : List String) : Except EmbError (List (List Rat)) :=
  if 2 ≤ l.length then Except.error EmbError.overLimit
  else Except.ok (l.map (fun _ => []))

/-- C2, evaluation at the failing input.  Against a provider that
rejects every multi-text batch but accepts every single text, the
source's except-handler splits the four-text batch once into two
two-text sub-batches, the first sub-batch's over-limit error is not
caught again, and the whole embedding step fails — even though each
individual text would embed successfully, as the claimed recursion down
to single-text batches would have done. -/
theorem c2_split_not_recursive_eval :
    embedBatchWithSplit rejectPairsEmbed ["a", "b", "c", "d"] =
      Except.error EmbError.overLimit ∧
    rejectPairsEmbed ["a"] = Except.ok [[]] := by
  constructor
  · simp [embedBatchWithSplit, rejectPairsEmbed, subBatches, embedSubBatches]
  · simp [rejectPairsEmbed]

/-! ## C3: the per-file diversity cap -/

theorem diversityGo_count (m : Nat) :
    ∀ (cs : List Chunk) (counts : String → Nat) (p : String),
      _is_critical_file p = false →
      counts p + ((diversityGo m cs counts).filter (fun c => c.file_path == p)).length ≤
        max m (counts p) := by
  intro cs
  induction cs with
  | nil =>
    intro counts p _
    simp [diversityGo, Nat.le_max_right]
  | cons c cs ih =>
    intro counts p hp
    by_cases hkeep : counts c.file_path < m ∨ _is_critical_file c.file_path = true
    · rw [diversityGo, if_pos hkeep]
      by_cases hpath : c.file_path = p
      · subst hpath
        have hcount : counts c.file_path < m := by
          rcases hkeep with h | h
          · exact h
          · rw [hp] at h; cases h
        have hfilter :
            ((c :: diversityGo m cs fun q =>
                if q = c.file_path then counts c.file_path + 1 else counts q).filter
              (fun x => x.file_path == c.file_path)).length =
            1 + ((diversityGo m cs fun q =>
                if q = c.file_path then counts c.file_path + 1 else counts q).filter
              (fun x => x.file_path == c.file_path)).length := by
          rw [List.filter_cons, if_pos (by simp)]
          simp [Nat.add_comm]
        rw [hfilter]
        have hthis := ih (fun q => if q = c.file_path then counts c.file_path + 1 else counts q)
          c.file_path hp
        have hcp : (fun q => if q = c.file_path then counts c.file_path + 1 else counts q)
            c.file_path = counts c.file_path + 1 := by simp
        rw [hcp] at hthis
        have h1 : max m (counts c.file_path + 1) = m := Nat.max_eq_left hcount
        have h2 : max m (counts c.file_path) = m := Nat.max_eq_left (Nat.le_of_lt hcount)
        rw [h1] at hthis
        rw [h2]
        omega
      · have hfilter :
            ((c :: diversityGo m cs fun q =>
                if q = c.file_path then counts c.file_path + 1 else counts q).filter
              (fun x => x.file_path == p)).length =
            ((diversityGo m cs fun q =>
                if q = c.file_path then counts c.file_path + 1 else counts q).filter
              (fun x => x.file_path == p)).length := by
          rw [List.filter_cons, if_neg (by simp; exact hpath)]
        rw [hfilter]
        have hcp : (fun q => if q = c.file_path then counts c.file_path + 1 else counts q) p
            = counts p := by
          have hne : ¬ p = c.file_path := fun h => hpath h.symm
          simp [hne]
        have := ih (fun q => if q = c.file_path then counts c.file_path + 1 else counts q) p hp
        rw [hcp] at this
        exact this
    · rw [diversityGo, if_neg hkeep]
      exact ih counts p hp

theorem diversityGo_critical_filter (m : Nat) :
    ∀ (cs : List Chunk) (counts : String → Nat),
      (diversityGo m cs counts).filter (fun c => _is_critical_file c.file_path) =
        cs.filter (fun c => _is_critical_file c.file_path) := by
  intro cs
  induction cs with
  | nil => intro counts; simp [diversityGo]
  | cons c cs ih =>
    intro counts
    by_cases hcrit : _is_critical_file c.file_path = true
    · rw [diversityGo, if_pos (Or.inr hcrit)]
      rw [List.filter_cons, List.filter_cons]
      simp only [hcrit, if_pos]
      rw [ih]
    · by_cases hkeep : counts c.file_path < m ∨ _is_critical_file c.file_path = true
      · rw [diversityGo, if_pos hkeep]
        rw [List.filter_cons, List.filter_cons]
        simp only [hcrit]
        simp only [Bool.false_eq_true, if_neg, ite_false]
        rw [ih]
      · rw [diversityGo, if_neg hkeep]
        rw [List.filter_cons]
        simp only [hcrit]
        simp only [Bool.false_eq_true, if_neg, ite_false]
        exact ih counts

theorem diversityGo_sublist (m : Nat) :
    ∀ (cs : List Chunk) (counts : String → Nat),
      List.Sublist (diversityGo m cs counts) cs := by
  intro cs
  induction cs with
  | nil => intro counts; simp [diversityGo]
  | cons c cs ih =>
    intro counts
    by_cases hkeep : counts c.file_path < m ∨ _is_critical_file c.file_path = true
    · rw [diversityGo, if_pos hkeep]
      exact List.Sublist.cons₂ c (ih _)
    · rw [diversityGo, if_neg hkeep]
      exact List.Sublist.cons c (ih counts)

/-- C3, amended.  With criticality judged exactly as the source's
`_is_critical_file` judges it (the lower-cased path must end with a
table suffix, so suffixes containing an upper-case letter never match),
`_ensure_diversity` keeps at most 5 chunks per non-critical path, keeps
every chunk from a critical path, and returns an order-preserving
subsequence of its input. -/
theorem c3_diversity_cap_amended (chunks : List Chunk) :
    (∀ p, _is_critical_file p = false →
      ((_ensure_diversity chunks 5).filter (fun c => c.file_path == p)).length ≤ 5) ∧
    (_ensure_diversity chunks 5).filter (fun c => _is_critical_file c.file_path) =
      chunks.filter (fun c => _is_critical_file c.file_path) ∧
    List.Sublist (_ensure_diversity chunks 5) chunks := by
  refine ⟨fun p hp => ?_, ?_, ?_⟩
  · have := diversityGo_count 5 chunks (fun _ => 0) p hp
    simpa [_ensure_diversity] using this
  · exact diversityGo_critical_filter 5 chunks (fun _ => 0)
  · exact diversityGo_sublist 5 chunks (fun _ => 0)

/-- A chunk from a file named `Pipfile`, which ends with the critical
suffix `"Pipfile"` verbatim but which the source's lower-casing check
never classifies as critical. -/
def pipfileChunk : Chunk := ⟨"Pipfile", "x", 1⟩

/-- C3, counterexample to the claim as stated: all six chunks come from
the file `Pipfile`, whose path matches the critical suffix `"Pipfile"`
of the table, yet `_ensure_diversity` keeps only five of them — the
source compares the LOWER-CASED path against the mixed-case suffix, so
the file is treated as non-critical and capped. -/
theorem c3_diversity_cap_counterexample :
    claimCriticalFile "Pipfile" = true ∧
    ((List.replicate 6 pipfileChunk).filter
      (fun c => claimCriticalFile c.file_path)).length = 6 ∧
    ((_ensure_diversity (List.replicate 6 pipfileChunk) 5).filter
      (fun c => claimCriticalFile c.file_path)).length = 5 := by
  refine ⟨by decide, by decide, by decide⟩

/-- Witness instantiating `c3_diversity_cap_amended` at a concrete
non-critical path. -/
theorem c3_diversity_cap_witness :
    _is_critical_file "a.py" = false ∧
    ((_ensure_diversity [⟨"a.py", "x", 1⟩] 5).filter
      (fun c => c.file_path == "a.py")).length ≤ 5 :=
  ⟨by decide, (c3_diversity_cap_amended [⟨"a.py", "x", 1⟩]).1 "a.py" (by decide)⟩

/-! ## C5: merge, first-occurrence dedup, descending sort -/

theorem dedupGo_filter (c : String) :
    ∀ (l : List Chunk) (seen : List String),
      (dedupGo seen l).filter (fun x => x.content == c) =
        if c ∈ seen then [] else (l.find? (fun x => x.content == c)).toList := by
  intro l
  induction l with
  | nil =>
    intro seen
    by_cases h : c ∈ seen <;> simp [dedupGo, h]
  | cons x l ih =>
    intro seen
    by_cases hx : x.content ∈ seen
    · rw [dedupGo, if_pos hx, ih seen]
      by_cases hc : c ∈ seen
      · simp [hc]
      · have hxc : (x.content == c) = false := by
          simp only [beq_eq_false_iff_ne, ne_eq]
          intro h; exact hc (h ▸ hx)
        simp [hc, List.find?_cons, hxc]
    · rw [dedupGo, if_neg hx]
      by_cases hxc : x.content = c
      · subst hxc
        rw [List.filter_cons, if_pos (by simp)]
        rw [ih (x.content :: seen), if_pos (List.mem_cons_self x.content seen)]
        simp [hx, List.find?_cons]
      · rw [List.filter_cons, if_neg (by simp [hxc])]
        rw [ih (x.content :: seen)]
        have hmem : (c ∈ x.content :: seen) ↔ c ∈ seen := by
          simp only [List.mem_cons]
          constructor
          · rintro (h | h)
            · exact absurd h.symm hxc
            · exact h
          · exact Or.inr
        by_cases hc : c ∈ seen
        · rw [if_pos (hmem.mpr hc), if_pos hc]
        · rw [if_neg (fun h => hc (hmem.mp h)), if_neg hc]
          simp [List.find?_cons, show (x.content == c) = false from by simp [hxc]]

theorem scoreDesc_trans (a b c : Chunk) :
    scoreDesc a b = true → scoreDesc b c = true → scoreDesc a c = true := by
  simp only [scoreDesc, decide_eq_true_eq]
  exact fun h1 h2 => le_trans h2 h1

theorem scoreDesc_total (a b : Chunk) : (scoreDesc a b || scoreDesc b a) = true := by
  simp only [scoreDesc, Bool.or_eq_true, decide_eq_true_eq]
  exact le_total b.score a.score

/-- C5.  `_merge_and_deduplicate_chunks` keeps, for every content value,
exactly the first-seen chunk of that content in list-of-lists traversal
order — with its original score, never a combined one — and returns the
survivors sorted descending by score. -/
theorem c5_merge_dedup (chunk_lists : List (List Chunk)) :
    (∀ c : String,
      (_merge_and_deduplicate_chunks chunk_lists).filter (fun x => x.content == c) =
        (chunk_lists.flatten.find? (fun x => x.content == c)).toList) ∧
    List.Pairwise (fun a b => b.score ≤ a.score)
      (_merge_and_deduplicate_chunks chunk_lists) := by
  constructor
  · intro c
    have hperm :
        List.Perm
          ((_merge_and_deduplicate_chunks chunk_lists).filter (fun x => x.content == c))
          ((dedupGo [] chunk_lists.flatten).filter (fun x => x.content == c)) :=
      List.Perm.filter _ (List.mergeSort_perm (dedupGo [] chunk_lists.flatten) scoreDesc)
    rw [dedupGo_filter c chunk_lists.flatten [], if_neg (List.not_mem_nil c)] at hperm
    rcases hfind : (chunk_lists.flatten.find? (fun x => x.content == c)) with _ | a
    · rw [hfind] at hperm
      rw [hfind]
      simp only [Option.toList] at hperm ⊢
      exact List.Perm.eq_nil hperm
    · rw [hfind] at hperm
      rw [hfind]
      simp only [Option.toList] at hperm ⊢
      exact List.perm_singleton.mp hperm
  · have hsorted := List.sorted_mergeSort
      scoreDesc_trans scoreDesc_total (dedupGo [] chunk_lists.flatten)
    exact hsorted.imp (by simp only [scoreDesc, decide_eq_true_eq]; exact fun h => h)

/-! ## C6: the boosting formula -/

theorem heuristic_foldl_aux (content : String) :
    ∀ (cats : List (String × List String)) (s : Rat),
      cats.foldl
        (fun score cat =>
          if cat.2.any (fun pattern => containsS (toLowerS content) (toLowerS pattern)) then
            score + categoryWeight cat.1
          else score) s =
      s + (cats.map
        (fun cat =>
          if cat.2.any (fun pattern => containsS (toLowerS content) (toLowerS pattern)) then
            categoryWeight cat.1
          else 0)).sum := by
  intro cats
  induction cats with
  | nil => intro s; simp
  | cons cat cats ih =>
    intro s
    rw [List.foldl_cons, List.map_cons, List.sum_cons, ih]
    by_cases h : cat.2.any (fun pattern => containsS (toLowerS content) (toLowerS pattern)) = true
    · rw [if_pos h, if_pos h]; ring
    · rw [if_neg h, if_neg h]; ring

theorem heuristic_eq_sum (content : String) :
    _calculate_heuristic_score content = heuristicSum content := by
  rw [_calculate_heuristic_score, heuristicSum, heuristic_foldl_aux]
  ring

theorem boostChunk_formula (c : Chunk) :
    boostChunk c =
      { c with score := c.score * (1 + fileBoostOf c.file_path + heuristicSum c.content) } := by
  simp only [boostChunk, fileBoostOf, ← heuristic_eq_sum]
  split_ifs <;> (congr 1 <;> ring)

/-- C6, amended.  `_apply_boosting` rescales every chunk's score to
base × (1 + file_boost + heuristic) — where file_boost is 0.5 when the
source's `_is_critical_file` check matches (the lower-cased path ends
with a table suffix, so mixed-case suffixes such as "Pipfile" never
match), else 0.3 when the lower-cased path contains a high-risk
substring, else 0, and the heuristic adds each matching keyword
category's weight (0.3 dangerous_functions/secrets, 0.2 auth/crypto,
0.1 otherwise) at most once per category — and returns the rescaled
chunks re-sorted descending by boosted score. -/
theorem c6_boosting_amended (chunks : List Chunk) :
    List.Perm (_apply_boosting chunks)
      (chunks.map (fun c =>
        { c with score := c.score * (1 + fileBoostOf c.file_path + heuristicSum c.content) })) ∧
    List.Pairwise (fun a b => b.score ≤ a.score) (_apply_boosting chunks) := by
  constructor
  · have h1 : List.Perm (_apply_boosting chunks) (chunks.map boostChunk) :=
      List.mergeSort_perm (chunks.map boostChunk) scoreDesc
    have h2 : chunks.map boostChunk =
        chunks.map (fun c =>
          { c with score := c.score * (1 + fileBoostOf c.file_path + heuristicSum c.content) }) :=
      List.map_congr_left (fun c _ => boostChunk_formula c)
    exact h2 ▸ h1
  · have hsorted := List.sorted_mergeSort
      scoreDesc_trans scoreDesc_total (chunks.map boostChunk)
    exact hsorted.imp (by simp only [scoreDesc, decide_eq_true_eq]; exact fun h => h)

/-- C6, counterexample to the claim as stated: the chunk comes from the
file `Pipfile`, whose path ends with the critical suffix `"Pipfile"`, so
the claim's formula demands multiplier 1 + 0.5 + 0 = 1.5; the source's
lower-casing check classifies the file as neither critical nor
high-risk, its content matches no heuristic category, and the boosted
score stays 1 instead of 1.5. -/
theorem c6_boosting_counterexample :
    claimCriticalFile "Pipfile" = true ∧
    heuristicSum "zzz" = 0 ∧
    (_apply_boosting [⟨"Pipfile", "zzz", 1⟩]).map (fun c => c.score) = [1] ∧
    (1 : Rat) ≠ 1 * (1 + 1/2 + heuristicSum "zzz") := by
  have hheur : _calculate_heuristic_score "zzz" = 0 := by
    simp +decide [_calculate_heuristic_score, SECURITY_HEURISTIC_PATTERNS]
  have hsum : heuristicSum "zzz" = 0 := heuristic_eq_sum "zzz" ▸ hheur
  refine ⟨by decide, hsum, ?_, ?_⟩
  · have hcrit : _is_critical_file "Pipfile" = false := by decide
    have hrisk : _is_high_risk_file "Pipfile" = false := by decide
    simp [_apply_boosting, List.mergeSort_singleton, boostChunk, hcrit, hrisk, hheur]
  · rw [hsum]
    norm_num

/-! ## C4: critical files survive into the final selection -/

/-- Invariant threaded through the suffix fold of
`_force_include_critical_files`: every path recorded as already present
either does not match the suffix of interest, or is the path of an
already-collected critical chunk matching it. -/
def ForceInv (s : String) (acc : List Chunk × List String) : Prop :=
  ∀ p ∈ acc.2, endsWithS p s = false ∨
    ∃ c ∈ acc.1, c.file_path = p ∧ endsWithS c.file_path s = true

theorem forceStep_mono (index : List Chunk) (acc : List Chunk × List String)
    (suffix : String) (c : Chunk) (hc : c ∈ acc.1) : c ∈ (forceStep index acc suffix).1 := by
  rw [forceStep]
  rcases hfind : index.find? (fun x => endsWithS x.file_path suffix) with _ | c₀ <;>
    simp only [hfind]
  · exact hc
  · by_cases hmem : c₀.file_path ∈ acc.2
    · rw [if_pos hmem]
      exact hc
    · rw [if_neg hmem]
      exact List.mem_append_left _ hc

theorem foldl_force_mono (index : List Chunk) :
    ∀ (sufs : List String) (acc : List Chunk × List String) (c : Chunk),
      c ∈ acc.1 → c ∈ (sufs.foldl (forceStep index) acc).1 := by
  intro sufs
  induction sufs with
  | nil => intro acc c hc; exact hc
  | cons x rest ih =>
    intro acc c hc
    exact ih (forceStep index acc x) c (forceStep_mono index acc x c hc)

theorem forceStep_inv (index : List Chunk) (s : String)
    (acc : List Chunk × List String) (suffix : String) (hinv : ForceInv s acc) :
    ForceInv s (forceStep index acc suffix) := by
  rw [forceStep]
  rcases hfind : index.find? (fun x => endsWithS x.file_path suffix) with _ | c₀ <;>
    simp only [hfind]
  · exact hinv
  · by_cases hmem : c₀.file_path ∈ acc.2
    · rw [if_pos hmem]
      exact hinv
    · rw [if_neg hmem]
      intro p hp
      rcases List.mem_cons.mp hp with hp | hp
      · by_cases hend : endsWithS p s = true
        · right
          refine ⟨{ c₀ with score := 999 }, List.mem_append_right _ (List.mem_singleton.mpr rfl), ?_, ?_⟩
          · exact hp.symm
          · show endsWithS c₀.file_path s = true
            exact hp ▸ hend
        · left
          exact Bool.eq_false_iff.mpr (fun h => hend h)
      · rcases hinv p hp with h | ⟨c, hc, hcp, hce⟩
        · exact Or.inl h
        · exact Or.inr ⟨c, List.mem_append_left _ hc, hcp, hce⟩

theorem forceStep_provides (index : List Chunk) (s : String)
    (acc : List Chunk × List String)
    (hidx : ∃ c ∈ index, endsWithS c.file_path s = true) (hinv : ForceInv s acc) :
    ∃ c ∈ (forceStep index acc s).1, endsWithS c.file_path s = true := by
  have hsome : (index.find? (fun x => endsWithS x.file_path s)).isSome := by
    rw [List.find?_isSome]
    exact hidx
  obtain ⟨c₀, hfind⟩ := Option.isSome_iff_exists.mp hsome
  have hc₀ : endsWithS c₀.file_path s = true := by
    have := List.find?_some hfind
    simpa using this
  rw [forceStep]
  simp only [hfind]
  by_cases hmem : c₀.file_path ∈ acc.2
  · rw [if_pos hmem]
    rcases hinv c₀.file_path hmem with h | ⟨c, hc, _, hce⟩
    · rw [hc₀] at h; cases h
    · exact ⟨c, hc, hce⟩
  · rw [if_neg hmem]
    exact ⟨{ c₀ with score := 999 },
      List.mem_append_right _ (List.mem_singleton.mpr rfl), hc₀⟩

theorem foldl_force_reaches (index : List Chunk) (s : String) :
    ∀ (sufs : List String) (acc : List Chunk × List String),
      s ∈ sufs →
      (∃ c ∈ index, endsWithS c.file_path s = true) →
      ForceInv s acc →
      ∃ c ∈ (sufs.foldl (forceStep index) acc).1, endsWithS c.file_path s = true := by
  intro sufs
  induction sufs with
  | nil => intro acc hs; cases hs
  | cons x rest ih =>
    intro acc hs hidx hinv
    rw [List.foldl_cons]
    by_cases hx : x = s
    · subst hx
      obtain ⟨c, hc, hce⟩ := forceStep_provides index x acc hidx hinv
      exact ⟨c, foldl_force_mono index rest (forceStep index acc x) c hc, hce⟩
    · have hs' : s ∈ rest := by
        rcases List.mem_cons.mp hs with h | h
        · exact absurd h.symm hx
        · exact h
      exact ih (forceStep index acc x) hs' hidx (forceStep_inv index s acc x hinv)

theorem foldl_force_length (index : List Chunk) :
    ∀ (sufs : List String) (acc : List Chunk × List String),
      ((sufs.foldl (forceStep index) acc).1).length ≤ acc.1.length + sufs.length := by
  intro sufs
  induction sufs with
  | nil => intro acc; simp
  | cons x rest ih =>
    intro acc
    rw [List.foldl_cons]
    refine le_trans (ih (forceStep index acc x)) ?_
    have hstep : (forceStep index acc x).1.length ≤ acc.1.length + 1 := by
      rw [forceStep]
      rcases hfind : index.find? (fun c => endsWithS c.file_path x) with _ | c₀ <;>
        simp only [hfind]
      · omega
      · by_cases hmem : c₀.file_path ∈ acc.2
        · rw [if_pos hmem]; omega
        · rw [if_neg hmem]
          simp
    simp only [List.length_cons]
    omega

theorem chunk_limit_ge (file_count : Nat) : 50 ≤ _calculate_chunk_limit file_count := by
  rw [_calculate_chunk_limit]
  split_ifs <;> simp [SMALL_REPO_CHUNK_LIMIT, MEDIUM_REPO_CHUNK_LIMIT, LARGE_REPO_CHUNK_LIMIT]

/-- C4.  For every critical suffix: if the repository's index holds a
chunk from a file matching that suffix (case-sensitively, as the
Elasticsearch wildcard query matches) while no chunk of the
post-diversity candidate list does, then the final list assembled by
`_fetch_chunks` — force-included chunks prepended, then truncated to the
adaptive chunk limit — still contains a chunk from a file matching the
suffix. -/
theorem c4_critical_file_forcing (index existing : List Chunk) (file_count : Nat)
    (suffix : String)
    (hsuf : suffix ∈ CRITICAL_FILE_SUFFIXES)
    (hidx : ∃ c ∈ index, endsWithS c.file_path suffix = true)
    (hmiss : ∀ c ∈ existing, endsWithS c.file_path suffix = false) :
    ∃ c ∈ fetchChunksFinal index existing file_count,
      endsWithS c.file_path suffix = true := by
  have hinv : ForceInv suffix ([], existing.map (fun c => c.file_path)) := by
    intro p hp
    left
    obtain ⟨c, hc, hcp⟩ := List.mem_map.mp hp
    exact hcp ▸ hmiss c hc
  obtain ⟨c, hc, hce⟩ := foldl_force_reaches index suffix CRITICAL_FILE_SUFFIXES
    ([], existing.map (fun c => c.file_path)) hsuf hidx hinv
  have hlen : (_force_include_critical_files index existing).length ≤
      _calculate_chunk_limit file_count := by
    have h1 := foldl_force_length index CRITICAL_FILE_SUFFIXES
      ([], existing.map (fun c => c.file_path))
    have h2 : CRITICAL_FILE_SUFFIXES.length = 16 := by decide
    have h3 := chunk_limit_ge file_count
    rw [_force_include_critical_files]
    simp only [List.length_nil] at h1
    omega
  refine ⟨c, ?_, hce⟩
  rw [fetchChunksFinal, List.take_append_eq_append_take,
    List.take_of_length_le hlen]
  exact List.mem_append_left _ hc

/-- Witness instantiating `c4_critical_file_forcing`: the index holds
one chunk from `requirements.txt`, the candidate list is empty, and the
final selection still contains a `requirements.txt` chunk. -/
theorem c4_critical_file_forcing_witness :
    ∃ c ∈ fetchChunksFinal [⟨"requirements.txt", "flask", 1⟩] [] 0,
      endsWithS c.file_path "requirements.txt" = true :=
  c4_critical_file_forcing [⟨"requirements.txt", "flask", 1⟩] [] 0 "requirements.txt"
    (by decide)
    ⟨⟨"requirements.txt", "flask", 1⟩, List.mem_singleton.mpr rfl, by decide⟩
    (by simp)

/-! ## C7: chunk ids depend only on owner, repo, path and content prefix -/

theorem bulkGo_nodup :
    ∀ (actions : List (String × Chunk)) (store : List (String × Chunk)),
      (store.map Prod.fst).Nodup →
      ((actions.foldl
        (fun store act => store.filter (fun kv => kv.1 ≠ act.1) ++ [act]) store).map
          Prod.fst).Nodup := by
  intro actions
  induction actions with
  | nil => intro store h; exact h
  | cons act acts ih =>
    intro store h
    rw [List.foldl_cons]
    refine ih _ ?_
    rw [List.map_append]
    refine List.Nodup.append ?_ (by simp) ?_
    · exact ((List.filter_sublist store).map Prod.fst).nodup h
    · intro k hk hk'
      simp only [List.map_cons, List.map_nil, List.mem_singleton] at hk'
      obtain ⟨kv, hkv, hkveq⟩ := List.mem_map.mp hk
      have := (List.mem_filter.mp hkv).2
      rw [hkveq, hk'] at this
      simp at this

/-- C7.  `generate_chunk_id` is a function of the owner, repo, path and
the first 100 characters of the content only — equal inputs (and in
particular contents agreeing on their first 100 characters) give equal
ids for any hash — and Elasticsearch bulk indexing keyed by those ids
keeps at most one document per id. -/
theorem c7_chunk_id_first100 (md5 : String → String)
    (owner repo file_path c₁ c₂ : String)
    (hpre : c₁.data.take 100 = c₂.data.take 100) :
    generate_chunk_id md5 owner repo file_path c₁ =
      generate_chunk_id md5 owner repo file_path c₂ ∧
    ∀ actions : List (String × Chunk), ((bulkIndexById actions).map Prod.fst).Nodup := by
  constructor
  · rw [generate_chunk_id, generate_chunk_id, hpre]
  · intro actions
    exact bulkGo_nodup actions [] (by simp)

/-- Witness instantiating `c7_chunk_id_first100`: two contents that agree
on their first 100 characters but differ afterwards get the same id. -/
theorem c7_chunk_id_first100_witness :
    (String.mk (List.replicate 100 'a' ++ ['x'])).data.take 100 =
      (String.mk (List.replicate 100 'a' ++ ['y'])).data.take 100 ∧
    generate_chunk_id (fun s => s) "o" "r" "p" (String.mk (List.replicate 100 'a' ++ ['x'])) =
      generate_chunk_id (fun s => s) "o" "r" "p" (String.mk (List.replicate 100 'a' ++ ['y'])) :=
  have hpre : (String.mk (List.replicate 100 'a' ++ ['x'])).data.take 100 =
      (String.mk (List.replicate 100 'a' ++ ['y'])).data.take 100 := by
    show (List.replicate 100 'a' ++ ['x']).take 100 = (List.replicate 100 'a' ++ ['y']).take 100
    rw [List.take_append_eq_append_take, List.take_append_eq_append_take]
    simp
  ⟨hpre,
   (c7_chunk_id_first100 (fun s => s) "o" "r" "p" _ _ hpre).1⟩

/-! ## C8: the read-only probe of ensure_index -/

/-- C8.  Called with `recreate_if_invalid=False`, `ensure_index` never
raises and never touches the store: it returns the readiness flag —
true exactly when the probe succeeds, the index exists, and its
`embedding` field is a `dense_vector` of dimension 1536 — together with
the store state unchanged, in every branch. -/
theorem c8_ensure_index_readonly (s : StoreState) :
    ensure_index s false = Except.ok (indexReady s, s) := by
  rcases s with ⟨pf, ie, emb⟩
  cases pf
  · cases ie
    · simp [ensure_index, indexReady]
    · rcases emb with _ | f
      · simp [ensure_index, indexReady]
      · by_cases hf : f.ftype = "dense_vector"
        · by_cases hd : f.dims = EMBEDDING_DIM
          · simp [ensure_index, indexReady, hf, hd]
          · simp [ensure_index, indexReady, hf, hd]
        · simp [ensure_index, indexReady, hf]
  · simp [ensure_index, indexReady]

/-! ## C9: lossy decoding is not the claimed empty-string fallback -/

/-- C9, evaluation at the failing input.  The two-byte file content
0x61 0xFF is not decodable as UTF-8 text (a strict decode fails), yet
`get_file_content`'s `errors='ignore'` decode returns "a", not the
empty string the claim (and the source's own dead
`except UnicodeDecodeError` handler) promises — and
`process_file_chunks` consequently produces a chunk from it instead of
zero chunks (the splitter is modelled as wrapping the content in one
chunk, as the character splitter does for short text). -/
theorem c9_lossy_decode_eval :
    validUtf8 [0x61, 0xFF] = false ∧
    getFileContentText [0x61, 0xFF] = "a" ∧
    process_file_chunks (fun s => [s]) (getFileContentText [0x61, 0xFF]) = ["a"] := by
  have hdec : decodeUtf8Ignore [0x61, 0xFF] = ['a'] := by
    simp [decodeUtf8Ignore, utf8Step]
  have htext : getFileContentText [0x61, 0xFF] = "a" := by
    rw [getFileContentText, hdec]
  refine ⟨?_, htext, ?_⟩
  · simp [validUtf8, utf8Step]
  · rw [htext, process_file_chunks, if_neg (by decide)]

/-! ## C10: search_similar_chunks swallows failures and bounds results -/

theorem search_similar_chunks_cases (env : SearchEnv) (top_k : Nat) :
    search_similar_chunks env top_k = [] ∨
    ∃ hits, env.storeHits = Except.ok hits ∧
      search_similar_chunks env top_k = (hits.take top_k).map toResult := by
  rcases env with ⟨ie, he, vr, eo, sh⟩
  rcases ie with e | b
  · left; rfl
  · cases b
    · left; rfl
    · by_cases hev : he = true ∧ vr = true
      · rcases eo with e' | vec
        · left
          simp [search_similar_chunks, hev.1, hev.2]
        · rcases sh with e'' | hits
          · left
            simp [search_similar_chunks, hev.1, hev.2]
          · right
            exact ⟨hits, rfl, by simp [search_similar_chunks, hev.1, hev.2]⟩
      · rcases sh with e'' | hits
        · left
          simp [search_similar_chunks, hev]
        · right
          refine ⟨hits, rfl, ?_⟩
          simp [search_similar_chunks, hev]

/-- C10.  `search_similar_chunks` returns at most `top_k` results; it
returns the empty list instead of raising when the index is missing,
when its existence probe raises, when the query embedding call fails
(with an embedder configured and a ready vector mapping), or when the
store query fails; and on success every returned result is the
field-for-field translation of one of the store's hits. -/
theorem c10_search_error_handling (env : SearchEnv) (top_k : Nat) :
    (search_similar_chunks env top_k).length ≤ top_k ∧
    (∀ e, env.indexExists = Except.error e → search_similar_chunks env top_k = []) ∧
    (env.indexExists = Except.ok false → search_similar_chunks env top_k = []) ∧
    (env.hasEmbedder = true → env.vectorReady = true →
      ∀ e, env.embedOutcome = Except.error e → search_similar_chunks env top_k = []) ∧
    (∀ e, env.storeHits = Except.error e → search_similar_chunks env top_k = []) ∧
    (∀ hits, env.storeHits = Except.ok hits →
      ∀ r ∈ search_similar_chunks env top_k, ∃ h ∈ hits, r = toResult h) := by
  refine ⟨?_, ?_, ?_, ?_, ?_, ?_⟩
  · rcases search_similar_chunks_cases env top_k with h | ⟨hits, _, h⟩
    · simp [h]
    · rw [h, List.length_map, List.length_take]
      exact min_le_left _ _
  · intro e he
    rcases env with ⟨ie, hemb, vr, eo, sh⟩
    simp only at he
    rw [search_similar_chunks, he]
  · intro he
    rcases env with ⟨ie, hemb, vr, eo, sh⟩
    simp only at he
    rw [search_similar_chunks, he]
  · intro h1 h2 e h3
    rcases env with ⟨ie, hemb, vr, eo, sh⟩
    simp only at h1 h2 h3
    subst h1; subst h2
    rcases ie with e' | b
    · rfl
    · cases b
      · rfl
      · simp [search_similar_chunks, h3]
  · intro e he
    rcases env with ⟨ie, hemb, vr, eo, sh⟩
    simp only at he
    subst he
    rcases ie with e' | b
    · rfl
    · cases b
      · rfl
      · by_cases hev : hemb = true ∧ vr = true
        · rcases eo with e'' | vec
          · simp [search_similar_chunks, hev.1, hev.2]
          · simp [search_similar_chunks, hev.1, hev.2]
        · simp [search_similar_chunks, hev]
  · intro hits hh r hr
    rcases search_similar_chunks_cases env top_k with h | ⟨hits', hh', h⟩
    · rw [h] at hr; cases hr
    · rw [hh] at hh'
      have : hits = hits' := by
        injection hh'
      subst this
      rw [h] at hr
      obtain ⟨x, hx, hxr⟩ := List.mem_map.mp hr
      exact ⟨x, List.mem_of_mem_take hx, hxr.symm⟩

/-- A hit used by the C10 witness. -/
def hitW : Hit := ⟨"c", "f.py", "r", "o", "m", 1, none⟩

/-- Witness instantiating `c10_search_error_handling` on concrete
environments exercising each failure branch and the success branch. -/
theorem c10_search_error_handling_witness :
    search_similar_chunks ⟨Except.error "boom", false, false, Except.ok [], Except.ok []⟩ 3 = [] ∧
    search_similar_chunks ⟨Except.ok false, false, false, Except.ok [], Except.ok []⟩ 3 = [] ∧
    search_similar_chunks ⟨Except.ok true, true, true, Except.error "embed", Except.ok []⟩ 3 = [] ∧
    search_similar_chunks ⟨Except.ok true, false, false, Except.ok [], Except.error "es"⟩ 3 = [] ∧
    (search_similar_chunks ⟨Except.ok true, false, false, Except.ok [], Except.ok [hitW]⟩ 3).length ≤ 3 ∧
    (∃ h ∈ [hitW], toResult hitW = toResult h) :=
  ⟨(c10_search_error_handling ⟨Except.error "boom", false, false, Except.ok [], Except.ok []⟩ 3).2.1 "boom" rfl,
   (c10_search_error_handling ⟨Except.ok false, false, false, Except.ok [], Except.ok []⟩ 3).2.2.1 rfl,
   (c10_search_error_handling ⟨Except.ok true, true, true, Except.error "embed", Except.ok []⟩ 3).2.2.2.1 rfl rfl "embed" rfl,
   (c10_search_error_handling ⟨Except.ok true, false, false, Except.ok [], Except.error "es"⟩ 3).2.2.2.2.1 "es" rfl,
   (c10_search_error_handling ⟨Except.ok true, false, false, Except.ok [], Except.ok [hitW]⟩ 3).1,
   (c10_search_error_handling ⟨Except.ok true, false, false, Except.ok [], Except.ok [hitW]⟩ 3).2.2.2.2.2
     [hitW] rfl (toResult hitW) (List.mem_singleton.mpr rfl)⟩

end CapstoneAI
